import Mathlib

/-!
Verification of the attribute parser of `src/plugins/extra/attrs.rs`
(markdown-it-rust): the function `parse_attrs`, which recognizes a trailing
inline attribute block of the form `\x7b#id .class key="value"\x7d` at the end
of a string by scanning the characters backwards with a six-state machine, and
the per-node merge step of `AttrsRule::run`.

The embedding works on `List Char` (the sequence of characters of the input):
the Rust iterator `s.char_indices().rev()` is modelled by recursion over
`s.data.reverse`, and the byte index recorded at the opening brace (used only
to slice `s[..end]` at a character boundary) is recovered as the length of the
still-unconsumed reversed tail, which equals the number of characters strictly
before the brace.
-/

namespace MarkdownItAttrs

/-- Rust `char::is_ascii_whitespace`: space, tab, newline, form feed, carriage
return.  This is the separator test used inside the braces (states Blank,
Unquoted, Key). -/
def isAsciiWhitespace (c : Char) : Bool :=
  c = ' ' || c = '\t' || c = '\n' || c = '\x0c' || c = '\r'

/-- Rust `char::is_whitespace` (the Unicode `White_Space` property), the
predicate used by `str::trim_end` when trimming the remainder on success. -/
def isUnicodeWhitespace (c : Char) : Bool :=
  c = '\t' || c = '\n' || c = '\x0b' || c = '\x0c' || c = '\r' || c = ' '
  || c = '\x85' || c = '\xa0' || c = '\u1680'
  || (0x2000 ≤ c.val && c.val ≤ 0x200a)
  || c = '\u2028' || c = '\u2029' || c = '\u202f' || c = '\u205f' || c = '\u3000'

/-- Rust `str::trim_end` on a character list: remove the longest suffix of
Unicode whitespace. -/
def trimEnd (l : List Char) : List Char :=
  (l.reverse.dropWhile isUnicodeWhitespace).reverse

/-- The state enum of `parse_attrs` (`State::Start`, `Blank`, `Key`, `Equal`,
`Quoted`, `Unquoted`). -/
inductive State
  | start
  | blank
  | key
  | equal
  | quoted
  | unquoted

/-- The backward-scanning loop of `parse_attrs`, over the reversed character
list.  Arguments: remaining reversed characters, current state, key buffer,
value buffer (both reversed-built by prepending, as in the Rust `insert(0, c)`
calls), and the accumulated attribute list.  `none` models every `return fail`
(including running off the front of the string); `some (rs, ac)` models
`break` at an opening brace `\x7b`, where `rs` is the reversed tail left after
the brace — its length is the number of characters strictly before the brace,
i.e. the recorded boundary `end`. -/
def go : List Char → State → List Char → List Char → List (String × String) →
    Option (List Char × List (String × String))
  | [], _, _, _, _ => none
  | c :: r, State.start, k, v, ac =>
      if c = '\x7d' then go r State.blank k v ac else none
  | c :: r, State.blank, k, v, ac =>
      if c = '\x7b' then some (r, ac)
      else if c = '"' then go r State.quoted k [] ac
      else if isAsciiWhitespace c then go r State.blank k v ac
      else go r State.unquoted k [c] ac
  | c :: r, State.quoted, k, v, ac =>
      if c = '"' then go r State.equal k v ac
      else go r State.quoted k (c :: v) ac
  | c :: r, State.equal, k, v, ac =>
      if c = '\\' then go r State.quoted k ('"' :: v) ac
      else if c = '=' then go r State.key [] v ac
      else none
  | c :: r, State.unquoted, k, v, ac =>
      if c = '\x7b' then none
      else if c = '#' then go r State.blank k v (("id", String.mk v) :: ac)
      else if c = '.' then go r State.blank k v (("class", String.mk v) :: ac)
      else if c = '=' then go r State.key [] v ac
      else if isAsciiWhitespace c then none
      else go r State.unquoted k (c :: v) ac
  | c :: r, State.key, k, v, ac =>
      if c = '\x7b' then some (r, (String.mk k, String.mk v) :: ac)
      else if isAsciiWhitespace c then
        go r State.blank k v ((String.mk k, String.mk v) :: ac)
      else go r State.key (c :: k) v ac

/-- Function `parse_attrs` from `attrs.rs`: run the backward scan from `State::Start`;
on failure return the untouched input with an empty attribute list, on break
check `attrs.is_empty()` and otherwise return the slice before the opening
brace with trailing whitespace trimmed, together with the attributes. -/
def parse_attrs (s : String) : String × List (String × String) :=
  match go s.data.reverse State.start [] [] [] with
  | none => (s, [])
  | some (rs, attrs) =>
      if attrs.isEmpty then (s, [])
      else (String.mk (trimEnd (s.data.take rs.length)), attrs)

/-- The per-node merge step of `AttrsRule::run`: parse the node's decorated
string (heading text content or code-fence info string); if the extracted
attribute list is empty, leave the node untouched, otherwise replace the
string by the parsed remainder and append (`Vec::extend`) the extracted pairs
to the node's attribute collection. -/
def applyAttrs (content : String) (nodeAttrs : List (String × String)) :
    String × List (String × String) :=
  let r := parse_attrs content
  if r.2.isEmpty then (content, nodeAttrs)
  else (r.1, nodeAttrs ++ r.2)

/-! ### Helper lemmas about the scan loop -/

/-- Equality of string concatenation on the underlying character lists. -/
lemma string_data_append (a b : String) : (a ++ b).data = a.data ++ b.data :=
  String.data_append a b

/-- Trimming `trimEnd` returns the empty list exactly when every character is Unicode
whitespace. -/
lemma trimEnd_eq_nil_iff (l : List Char) :
    trimEnd l = [] ↔ ∀ c ∈ l, isUnicodeWhitespace c = true := by
  unfold trimEnd
  rw [List.reverse_eq_nil_iff, List.dropWhile_eq_nil_iff]
  constructor
  · intro h c hc
    exact h c (List.mem_reverse.mpr hc)
  · intro h c hc
    exact h c (List.mem_reverse.mp hc)

/-- Splitting off the whitespace suffix removed by `trimEnd`. -/
lemma trimEnd_append_whitespace (l : List Char) :
    ∃ w, (∀ c ∈ w, isUnicodeWhitespace c = true) ∧ trimEnd l ++ w = l := by
  refine ⟨(l.reverse.takeWhile isUnicodeWhitespace).reverse, ?_, ?_⟩
  · intro c hc
    exact List.mem_takeWhile_imp (List.mem_reverse.mp hc)
  · unfold trimEnd
    rw [← List.reverse_append, List.takeWhile_append_dropWhile, List.reverse_reverse]

/-- If `parse_attrs` returns an empty attribute list, it returns the original
input untouched (the failure result). -/
lemma parse_attrs_snd_nil (s : String) (h : (parse_attrs s).2 = []) :
    parse_attrs s = (s, []) := by
  unfold parse_attrs at h ⊢
  cases hgo : go s.data.reverse State.start [] [] [] with
  | none => rfl
  | some p =>
      obtain ⟨rs, attrs⟩ := p
      rw [hgo] at h
      by_cases ha : attrs.isEmpty
      · simp [ha]
      · have h2 : attrs = [] := by simpa [ha] using h
        exact absurd (by simp [h2]) ha

/-- The attribute accumulator is only ever prepended to: appending `X` to the
accumulator appends `X` to the attribute list of any break result. -/
lemma go_acc_append (R : List Char) : ∀ st k v ac X,
    go R st k v (ac ++ X) =
      Option.map (fun p => (p.1, p.2 ++ X)) (go R st k v ac) := by
  induction R with
  | nil => intro st k v ac X; simp [go]
  | cons c r ih =>
      intro st k v ac X
      cases st with
      | start =>
          simp only [go]; split_ifs
          · exact ih State.blank k v ac X
          · simp
      | blank =>
          simp only [go]; split_ifs
          · simp
          · exact ih State.quoted k [] ac X
          · exact ih State.blank k v ac X
          · exact ih State.unquoted k [c] ac X
      | quoted =>
          simp only [go]; split_ifs
          · exact ih State.equal k v ac X
          · exact ih State.quoted k (c :: v) ac X
      | equal =>
          simp only [go]; split_ifs
          · exact ih State.quoted k ('"' :: v) ac X
          · exact ih State.key [] v ac X
          · simp
      | unquoted =>
          simp only [go]; split_ifs
          · simp
          · exact ih State.blank k v (("id", String.mk v) :: ac) X
          · exact ih State.blank k v (("class", String.mk v) :: ac) X
          · exact ih State.key [] v ac X
          · simp
          · exact ih State.unquoted k (c :: v) ac X
      | key =>
          simp only [go]; split_ifs
          · simp
          · exact ih State.blank k v ((String.mk k, String.mk v) :: ac) X
          · exact ih State.key (c :: k) v ac X

/-- The key buffer does not influence the scan outside the `Key` state: every
path that reads it first passes through a transition that resets it. -/
lemma go_key_irrel (R : List Char) : ∀ st k k' v ac, st ≠ State.key →
    go R st k v ac = go R st k' v ac := by
  induction R with
  | nil => intros; simp [go]
  | cons c r ih =>
      intro st k k' v ac hst
      cases st with
      | start =>
          simp only [go]; split_ifs
          · exact ih State.blank k k' v ac nofun
          · rfl
      | blank =>
          simp only [go]; split_ifs
          · rfl
          · exact ih State.quoted k k' [] ac nofun
          · exact ih State.blank k k' v ac nofun
          · exact ih State.unquoted k k' [c] ac nofun
      | quoted =>
          simp only [go]; split_ifs
          · exact ih State.equal k k' v ac nofun
          · exact ih State.quoted k k' (c :: v) ac nofun
      | equal =>
          simp only [go]; split_ifs
          · exact ih State.quoted k k' ('"' :: v) ac nofun
          · rfl
          · rfl
      | unquoted =>
          simp only [go]; split_ifs
          · rfl
          · exact ih State.blank k k' v (("id", String.mk v) :: ac) nofun
          · exact ih State.blank k k' v (("class", String.mk v) :: ac) nofun
          · rfl
          · rfl
          · exact ih State.unquoted k k' (c :: v) ac nofun
      | key => exact absurd rfl hst

/-- The value buffer does not influence the scan from the `Blank` state: it is
reset before being read again. -/
lemma go_blank_value_irrel (R : List Char) : ∀ k v v' ac,
    go R State.blank k v ac = go R State.blank k v' ac := by
  induction R with
  | nil => intros; simp [go]
  | cons c r ih =>
      intro k v v' ac
      simp only [go]; split_ifs
      · rfl
      · rfl
      · exact ih k v v' ac
      · rfl

/-- A break result always happens at an opening brace: the input splits as the
consumed part, the brace, and the returned tail. -/
lemma go_break_suffix (R : List Char) : ∀ st k v ac rs a,
    go R st k v ac = some (rs, a) → ∃ C, R = C ++ '\x7b' :: rs := by
  induction R with
  | nil => intro st k v ac rs a h; simp [go] at h
  | cons c r ih =>
      intro st k v ac rs a h
      have step : ∀ st' k' v' ac', go r st' k' v' ac' = some (rs, a) →
          ∃ C, c :: r = C ++ '\x7b' :: rs := by
        intro st' k' v' ac' h'
        obtain ⟨C, hC⟩ := ih st' k' v' ac' rs a h'
        exact ⟨c :: C, by simp [hC]⟩
      cases st with
      | start =>
          simp only [go] at h
          split_ifs at h
          · exact step _ _ _ _ h
      | blank =>
          simp only [go] at h
          split_ifs at h with h1
          · obtain ⟨hr, ha⟩ : r = rs ∧ ac = a := by simpa using h
            exact ⟨[], by simp [h1, hr]⟩
          · exact step _ _ _ _ h
          · exact step _ _ _ _ h
          · exact step _ _ _ _ h
      | quoted =>
          simp only [go] at h
          split_ifs at h
          · exact step _ _ _ _ h
          · exact step _ _ _ _ h
      | equal =>
          simp only [go] at h
          split_ifs at h
          · exact step _ _ _ _ h
          · exact step _ _ _ _ h
      | unquoted =>
          simp only [go] at h
          split_ifs at h
          · exact step _ _ _ _ h
          · exact step _ _ _ _ h
          · exact step _ _ _ _ h
          · exact step _ _ _ _ h
      | key =>
          simp only [go] at h
          split_ifs at h with h1
          · obtain ⟨hr, ha⟩ : r = rs ∧ (String.mk k, String.mk v) :: ac = a := by
              simpa using h
            exact ⟨[], by simp [h1, hr]⟩
          · exact step _ _ _ _ h
          · exact step _ _ _ _ h

/-- Shift lemma: if the scan of `A` followed by an opening brace, started in
state `st`, consumes all of `A` and breaks exactly at that brace with attribute
list `P`, then replacing the brace by a space followed by any continuation `B`
makes the scan consume `A` and the space and continue in the `Blank` state on
`B` with accumulator `P` (for some leftover buffer contents). -/
lemma go_shift (A : List Char) : ∀ B st k v ac P,
    go (A ++ ['\x7b']) st k v ac = some ([], P) →
    ∃ k2 v2, go (A ++ ' ' :: B) st k v ac = go B State.blank k2 v2 P := by
  induction A with
  | nil =>
      intro B st k v ac P h
      cases st with
      | start => simp [go] at h
      | blank =>
          have hP : ac = P := by simpa [go] using h
          subst hP
          exact ⟨k, v, rfl⟩
      | quoted => simp [go] at h
      | equal => simp [go] at h
      | unquoted => simp [go] at h
      | key =>
          have hP : (String.mk k, String.mk v) :: ac = P := by simpa [go] using h
          subst hP
          exact ⟨k, v, rfl⟩
  | cons c A' ih =>
      intro B st k v ac P h
      rw [List.cons_append] at h
      rw [List.cons_append]
      cases st with
      | start =>
          simp only [go] at h ⊢
          by_cases h1 : c = '\x7d'
          · rw [if_pos h1] at h ⊢
            exact ih B State.blank k v ac P h
          · rw [if_neg h1] at h
            simp at h
      | blank =>
          simp only [go] at h ⊢
          by_cases h1 : c = '\x7b'
          · rw [if_pos h1] at h
            simp at h
          · rw [if_neg h1] at h ⊢
            by_cases h2 : c = '"'
            · rw [if_pos h2] at h ⊢
              exact ih B State.quoted k [] ac P h
            · rw [if_neg h2] at h ⊢
              by_cases h3 : isAsciiWhitespace c
              · rw [if_pos h3] at h ⊢
                exact ih B State.blank k v ac P h
              · rw [if_neg h3] at h ⊢
                exact ih B State.unquoted k [c] ac P h
      | quoted =>
          simp only [go] at h ⊢
          by_cases h1 : c = '"'
          · rw [if_pos h1] at h ⊢
            exact ih B State.equal k v ac P h
          · rw [if_neg h1] at h ⊢
            exact ih B State.quoted k (c :: v) ac P h
      | equal =>
          simp only [go] at h ⊢
          by_cases h1 : c = '\\'
          · rw [if_pos h1] at h ⊢
            exact ih B State.quoted k ('"' :: v) ac P h
          · rw [if_neg h1] at h ⊢
            by_cases h2 : c = '='
            · rw [if_pos h2] at h ⊢
              exact ih B State.key [] v ac P h
            · rw [if_neg h2] at h
              simp at h
      | unquoted =>
          simp only [go] at h ⊢
          by_cases h1 : c = '\x7b'
          · rw [if_pos h1] at h
            simp at h
          · rw [if_neg h1] at h ⊢
            by_cases h2 : c = '#'
            · rw [if_pos h2] at h ⊢
              exact ih B State.blank k v (("id", String.mk v) :: ac) P h
            · rw [if_neg h2] at h ⊢
              by_cases h3 : c = '.'
              · rw [if_pos h3] at h ⊢
                exact ih B State.blank k v (("class", String.mk v) :: ac) P h
              · rw [if_neg h3] at h ⊢
                by_cases h4 : c = '='
                · rw [if_pos h4] at h ⊢
                  exact ih B State.key [] v ac P h
                · rw [if_neg h4] at h ⊢
                  by_cases h5 : isAsciiWhitespace c
                  · rw [if_pos h5] at h
                    simp at h
                  · rw [if_neg h5] at h ⊢
                    exact ih B State.unquoted k (c :: v) ac P h
      | key =>
          simp only [go] at h ⊢
          by_cases h1 : c = '\x7b'
          · rw [if_pos h1] at h
            simp at h
          · rw [if_neg h1] at h ⊢
            by_cases h2 : isAsciiWhitespace c
            · rw [if_pos h2] at h ⊢
              exact ih B State.blank k v ((String.mk k, String.mk v) :: ac) P h
            · rw [if_neg h2] at h ⊢
              exact ih B State.key (c :: k) v ac P h

/-- On a braced input whose parse succeeds with empty remainder, the scan must
have consumed the whole content and broken exactly at the leading opening
brace, with a non-empty attribute list. -/
lemma parse_attrs_braced (t : String) (pt : List (String × String))
    (h : parse_attrs ("\x7b" ++ t ++ "\x7d") = ("", pt)) :
    go (t.data.reverse ++ ['\x7b']) State.blank [] [] [] = some ([], pt) ∧
      pt ≠ [] := by
  have hdata : ("\x7b" ++ t ++ "\x7d").data = '\x7b' :: (t.data ++ ['\x7d']) := by
    rw [string_data_append, string_data_append]
    rfl
  have hrev : ("\x7b" ++ t ++ "\x7d").data.reverse
      = '\x7d' :: (t.data.reverse ++ ['\x7b']) := by
    rw [hdata]
    simp
  have hne : ("\x7b" ++ t ++ "\x7d" : String) ≠ "" := by
    intro he
    have := congrArg String.data he
    rw [hdata] at this
    simp at this
  unfold parse_attrs at h
  rw [hrev] at h
  have hstep : go ('\x7d' :: (t.data.reverse ++ ['\x7b'])) State.start [] [] []
      = go (t.data.reverse ++ ['\x7b']) State.blank [] [] [] := by
    simp [go]
  rw [hstep] at h
  cases hgo : go (t.data.reverse ++ ['\x7b']) State.blank [] [] [] with
  | none =>
      rw [hgo] at h
      exact absurd (congrArg Prod.fst h) hne
  | some p =>
      obtain ⟨rs, ac⟩ := p
      rw [hgo] at h
      dsimp only at h
      by_cases ha : ac.isEmpty
      · rw [if_pos ha] at h
        exact absurd (congrArg Prod.fst h) hne
      · rw [if_neg ha] at h
        have hfst : String.mk (trimEnd ((("\x7b" ++ t ++ "\x7d").data).take rs.length))
            = "" := congrArg Prod.fst h
        have hsnd : ac = pt := congrArg Prod.snd h
        have htrim : trimEnd ((("\x7b" ++ t ++ "\x7d").data).take rs.length) = [] :=
          congrArg String.data hfst
        have hrs : rs.length = 0 := by
          by_contra hpos
          obtain ⟨n, hn⟩ := Nat.exists_eq_succ_of_ne_zero hpos
          have hmem : '\x7b' ∈ (("\x7b" ++ t ++ "\x7d").data).take rs.length := by
            rw [hdata, hn]
            simp
          have hws := (trimEnd_eq_nil_iff _).mp htrim '\x7b' hmem
          simp [isUnicodeWhitespace] at hws
        have hrsnil : rs = [] := List.length_eq_zero.mp hrs
        subst hrsnil
        subst hsnd
        refine ⟨rfl, ?_⟩
        intro hp
        subst hp
        simp at ha

/-- The number of loop iterations (calls of the reversed character iterator)
performed by the scan of `parse_attrs`: each iteration either consumes one
character and recurses or terminates the loop. -/
def goSteps : List Char → State → List Char → List Char → List (String × String) → Nat
  | [], _, _, _, _ => 1
  | c :: r, State.start, k, v, ac =>
      if c = '\x7d' then 1 + goSteps r State.blank k v ac else 1
  | c :: r, State.blank, k, v, ac =>
      if c = '\x7b' then 1
      else if c = '"' then 1 + goSteps r State.quoted k [] ac
      else if isAsciiWhitespace c then 1 + goSteps r State.blank k v ac
      else 1 + goSteps r State.unquoted k [c] ac
  | c :: r, State.quoted, k, v, ac =>
      if c = '"' then 1 + goSteps r State.equal k v ac
      else 1 + goSteps r State.quoted k (c :: v) ac
  | c :: r, State.equal, k, v, ac =>
      if c = '\\' then 1 + goSteps r State.quoted k ('"' :: v) ac
      else if c = '=' then 1 + goSteps r State.key [] v ac
      else 1
  | c :: r, State.unquoted, k, v, ac =>
      if c = '\x7b' then 1
      else if c = '#' then 1 + goSteps r State.blank k v (("id", String.mk v) :: ac)
      else if c = '.' then 1 + goSteps r State.blank k v (("class", String.mk v) :: ac)
      else if c = '=' then 1 + goSteps r State.key [] v ac
      else if isAsciiWhitespace c then 1
      else 1 + goSteps r State.unquoted k (c :: v) ac
  | c :: r, State.key, k, v, ac =>
      if c = '\x7b' then 1
      else if isAsciiWhitespace c then
        1 + goSteps r State.blank k v ((String.mk k, String.mk v) :: ac)
      else 1 + goSteps r State.key (c :: k) v ac

/-- The scan always terminates after at most one iteration per input
character, plus the final iteration that observes the end of the input. -/
lemma goSteps_le (R : List Char) : ∀ st k v ac, goSteps R st k v ac ≤ R.length + 1 := by
  induction R with
  | nil => intro st k v ac; simp [goSteps]
  | cons c r ih =>
      intro st k v ac
      have hb : ∀ st' k' v' ac', 1 + goSteps r st' k' v' ac' ≤ (c :: r).length + 1 := by
        intro st' k' v' ac'
        have := ih st' k' v' ac'
        simp only [List.length_cons]
        omega
      cases st <;> simp only [goSteps] <;> split_ifs <;>
        first
        | exact hb _ _ _ _
        | simp

example : parse_attrs "\x7b#foo\x7d" = ("", [("id", "foo")]) := by decide
example : parse_attrs "\x7b.haskell\x7d" = ("", [("class", "haskell")]) := by decide
example : parse_attrs "\x7bkey=val\x7d" = ("", [("key", "val")]) := by decide
example : parse_attrs "\x7bkey2=\"val 2\"\x7d" = ("", [("key2", "val 2")]) := by decide
example : parse_attrs "\x7b#foo" = ("\x7b#foo", []) := by decide
example : parse_attrs "\x7b\x7d" = ("\x7b\x7d", []) := by decide
example : parse_attrs "#foo\x7d" = ("#foo\x7d", []) := by decide
example : parse_attrs "\x7bval #foo\x7d" = ("\x7bval #foo\x7d", []) := by decide
example : parse_attrs "a \x7b#x\x7d" = ("a", [("id", "x")]) := by decide


/-! ### Claim theorems -/

/-- C1: for every input string, `parse_attrs` never returns a success with an
empty attribute list: whenever the attribute list is empty, the result is
exactly the failure value carrying the untouched input, and the zero-token
input `\x7b\x7d` yields the failure result. -/
theorem C1_nonempty_success_invariant :
    (∀ s : String, (parse_attrs s).2 = [] → parse_attrs s = (s, [])) ∧
    parse_attrs "\x7b\x7d" = ("\x7b\x7d", []) :=
  ⟨fun s h => parse_attrs_snd_nil s h, by decide⟩

theorem C1_witness : parse_attrs "abc" = ("abc", []) :=
  C1_nonempty_success_invariant.1 "abc" (by decide)

/-- C2: `parse_attrs` is atomic on failure: any input that is empty or whose
last character is not the closing brace gives back the original string with an
empty attribute list, and every other failure path (empty attribute list)
likewise returns the original input byte-identical with no partial
application of the scan. -/
theorem C2_atomic_failure :
    (∀ s : String, s.data.getLast? ≠ some '\x7d' → parse_attrs s = (s, [])) ∧
    (∀ s : String, (parse_attrs s).2 = [] → parse_attrs s = (s, [])) := by
  constructor
  · intro s h
    unfold parse_attrs
    cases hr : s.data.reverse with
    | nil => simp [go]
    | cons c r =>
        have hlast : s.data.getLast? = some c := by
          rw [← List.head?_reverse, hr]
          rfl
        have hc : c ≠ '\x7d' := fun he => h (he ▸ hlast)
        simp [go, hc]
  · exact fun s h => parse_attrs_snd_nil s h

theorem C2_witness : parse_attrs "q" = ("q", []) :=
  C2_atomic_failure.1 "q" (by decide)

/-- C3: attribute order is preserved left-to-right despite the right-to-left
scan: whenever two brace-enclosed contents parse with empty remainder, their
space-separated concatenation inside one brace pair parses to the
concatenation of their attribute lists in source order; and the four-token
example from the spec yields its pairs exactly in source order. -/
theorem C3_order_preservation :
    (∀ (t u : String) (pt pu : List (String × String)),
      parse_attrs ("\x7b" ++ t ++ "\x7d") = ("", pt) →
      parse_attrs ("\x7b" ++ u ++ "\x7d") = ("", pu) →
      parse_attrs ("\x7b" ++ t ++ " " ++ u ++ "\x7d") = ("", pt ++ pu)) ∧
    parse_attrs "\x7b#mycode .haskell .numberLines startFrom=\"100\"\x7d" =
      ("", [("id", "mycode"), ("class", "haskell"), ("class", "numberLines"),
        ("startFrom", "100")]) := by
  constructor
  · intro t u pt pu ht hu
    obtain ⟨hgt, hptne⟩ := parse_attrs_braced t pt ht
    obtain ⟨hgu, hpune⟩ := parse_attrs_braced u pu hu
    have hdata : ("\x7b" ++ t ++ " " ++ u ++ "\x7d").data
        = '\x7b' :: (t.data ++ ' ' :: (u.data ++ ['\x7d'])) := by
      simp [string_data_append]
    have hrev : ("\x7b" ++ t ++ " " ++ u ++ "\x7d").data.reverse
        = '\x7d' :: (u.data.reverse ++ ' ' :: (t.data.reverse ++ ['\x7b'])) := by
      rw [hdata]
      simp
    unfold parse_attrs
    rw [hrev]
    have hstep : go ('\x7d' :: (u.data.reverse ++ ' ' :: (t.data.reverse ++ ['\x7b'])))
        State.start [] [] []
        = go (u.data.reverse ++ ' ' :: (t.data.reverse ++ ['\x7b'])) State.blank [] [] [] := by
      simp [go]
    rw [hstep]
    obtain ⟨k2, v2, hsh⟩ :=
      go_shift u.data.reverse (t.data.reverse ++ ['\x7b']) State.blank [] [] [] pu hgu
    rw [hsh]
    rw [go_key_irrel _ State.blank k2 [] v2 pu nofun]
    rw [go_blank_value_irrel _ [] v2 [] pu]
    have hacc := go_acc_append (t.data.reverse ++ ['\x7b']) State.blank [] [] [] pu
    rw [hgt] at hacc
    simp only [Option.map_some'] at hacc
    rw [show ([] : List (String × String)) ++ pu = pu from rfl] at hacc
    rw [hacc]
    dsimp only
    have hne2 : (pt ++ pu).isEmpty = false := by
      cases pt with
      | nil => exact absurd rfl hptne
      | cons a l => rfl
    rw [if_neg (by simp [hne2])]
    rfl
  · decide

theorem C3_witness :
    parse_attrs ("\x7b" ++ "#a" ++ " " ++ ".b" ++ "\x7d") =
      ("", [("id", "a"), ("class", "b")]) :=
  C3_order_preservation.1 "#a" ".b" [("id", "a")] [("class", "b")]
    (by decide) (by decide)

/-- C4: escape handling in quoted values: in the `Quoted` state every
character other than a double quote is prepended to the value buffer verbatim
(including whitespace), a backslash before the tentative closing quote turns
it into a literal double quote in the value with the backslash removed, and
the spec's example `\x7bkey2="val\"2"\x7d` extracts the value containing a
literal quote. -/
theorem C4_escape_correctness :
    (∀ (r k v : List Char) (ac : List (String × String)) (c : Char),
      c ≠ '"' → go (c :: r) State.quoted k v ac = go r State.quoted k (c :: v) ac) ∧
    (∀ (r k v : List Char) (ac : List (String × String)),
      go ('\\' :: r) State.equal k v ac = go r State.quoted k ('"' :: v) ac) ∧
    parse_attrs "\x7bkey2=\"val\\\"2\"\x7d" = ("", [("key2", "val\"2")]) := by
  refine ⟨?_, ?_, by decide⟩
  · intro r k v ac c hc
    simp [go, hc]
  · intro r k v ac
    simp [go]

theorem C4_witness :
    go ['x'] State.quoted [] [] [] = go [] State.quoted [] ['x'] [] :=
  C4_escape_correctness.1 [] [] [] [] 'x' (by decide)

/-- C5: round-trip on success: every success result determines a boundary
index `e` pointing at the opening brace such that the remainder is the prefix
before `e` with trailing whitespace trimmed, and the remainder, the trimmed
whitespace, and the matched suffix starting at `e` reconstruct the input. -/
theorem C5_round_trip (s r : String) (attrs : List (String × String))
    (h : parse_attrs s = (r, attrs)) (hne : attrs ≠ []) :
    ∃ e, e ≤ s.data.length ∧ s.data[e]? = some '\x7b' ∧
      r.data = trimEnd (s.data.take e) ∧
      ∃ w, (∀ c ∈ w, isUnicodeWhitespace c = true) ∧
        r.data ++ w ++ s.data.drop e = s.data := by
  unfold parse_attrs at h
  cases hgo : go s.data.reverse State.start [] [] [] with
  | none =>
      rw [hgo] at h
      exact absurd (congrArg Prod.snd h).symm hne
  | some p =>
      obtain ⟨rs, ac⟩ := p
      rw [hgo] at h
      dsimp only at h
      by_cases ha : ac.isEmpty
      · rw [if_pos ha] at h
        exact absurd (congrArg Prod.snd h).symm hne
      · rw [if_neg ha] at h
        have hr : r = String.mk (trimEnd (s.data.take rs.length)) :=
          (congrArg Prod.fst h).symm
        obtain ⟨C, hsplit⟩ :=
          go_break_suffix s.data.reverse State.start [] [] [] rs ac hgo
        have hs : s.data = rs.reverse ++ '\x7b' :: C.reverse := by
          have h2 := congrArg List.reverse hsplit
          rw [List.reverse_reverse] at h2
          rw [h2]
          simp
        refine ⟨rs.length, ?_, ?_, ?_, ?_⟩
        · rw [hs]
          simp only [List.length_append, List.length_reverse, List.length_cons]
          omega
        · rw [hs]
          rw [List.getElem?_append_right (by simp)]
          simp
        · rw [hr]
        · obtain ⟨w, hw, hwe⟩ := trimEnd_append_whitespace (s.data.take rs.length)
          refine ⟨w, hw, ?_⟩
          rw [hr]
          show trimEnd (s.data.take rs.length) ++ w ++ s.data.drop rs.length = s.data
          rw [hwe]
          exact List.take_append_drop _ _

theorem C5_witness :
    ∃ e, e ≤ ("a \x7b#x\x7d" : String).data.length ∧
      ("a \x7b#x\x7d" : String).data[e]? = some '\x7b' ∧
      ("a" : String).data = trimEnd (("a \x7b#x\x7d" : String).data.take e) ∧
      ∃ w, (∀ c ∈ w, isUnicodeWhitespace c = true) ∧
        ("a" : String).data ++ w ++ ("a \x7b#x\x7d" : String).data.drop e
          = ("a \x7b#x\x7d" : String).data :=
  C5_round_trip "a \x7b#x\x7d" "a" [("id", "x")] (by decide) (by decide)

/-- C6: a bare unquoted token not prefixed by `#`, `.` or `=` fails the whole
scan: in the `Unquoted` state both a whitespace separator and the opening
brace abort with the failure value, and the example inputs
`\x7bval #foo\x7d` and `\x7bval\x7d` return the untouched input with no
partial recovery. -/
theorem C6_bare_token_failure :
    (∀ (r k v : List Char) (ac : List (String × String)) (c : Char),
      isAsciiWhitespace c = true → go (c :: r) State.unquoted k v ac = none) ∧
    (∀ (r k v : List Char) (ac : List (String × String)),
      go ('\x7b' :: r) State.unquoted k v ac = none) ∧
    parse_attrs "\x7bval #foo\x7d" = ("\x7bval #foo\x7d", []) ∧
    parse_attrs "\x7bval\x7d" = ("\x7bval\x7d", []) := by
  refine ⟨?_, ?_, by decide, by decide⟩
  · intro r k v ac c hws
    have h1 : c ≠ '\x7b' := by rintro rfl; simp [isAsciiWhitespace] at hws
    have h2 : c ≠ '#' := by rintro rfl; simp [isAsciiWhitespace] at hws
    have h3 : c ≠ '.' := by rintro rfl; simp [isAsciiWhitespace] at hws
    have h4 : c ≠ '=' := by rintro rfl; simp [isAsciiWhitespace] at hws
    simp [go, h1, h2, h3, h4, hws]
  · intro r k v ac
    simp [go]

theorem C6_witness : go [' '] State.unquoted [] [] [] = none :=
  C6_bare_token_failure.1 [] [] [] [] ' ' (by decide)

/-- C7: the merge step appends the extracted pairs after the node's existing
attribute collection, preserving all existing entries (no removal, overwrite
or deduplication), and when the extracted list is empty the node's decorated
string and attribute collection are left completely unmodified. -/
theorem C7_merge_policy :
    ∀ (content : String) (nodeAttrs : List (String × String)),
      (applyAttrs content nodeAttrs).2 = nodeAttrs ++ (parse_attrs content).2 ∧
      ((parse_attrs content).2 = [] →
        applyAttrs content nodeAttrs = (content, nodeAttrs)) := by
  intro content nodeAttrs
  constructor
  · by_cases h : (parse_attrs content).2.isEmpty
    · have h2 : (parse_attrs content).2 = [] := by simpa using h
      simp [applyAttrs, h, h2]
    · simp [applyAttrs, h]
  · intro h
    simp [applyAttrs, h]

theorem C7_witness : applyAttrs "z" [("a", "b")] = ("z", [("a", "b")]) :=
  (C7_merge_policy "z" [("a", "b")]).2 (by decide)

/-- C8: the scan is total and in bounds: the loop performs at most one
iteration per input character plus one final iteration, and on every break the
recorded boundary is a valid character position of the input that holds the
opening brace, so the final slicing is always within bounds (on a character
boundary). -/
theorem C8_termination_and_bounds :
    (∀ (R : List Char) (st : State) (k v : List Char)
      (ac : List (String × String)), goSteps R st k v ac ≤ R.length + 1) ∧
    (∀ (s : String) (rs : List Char) (a : List (String × String)),
      go s.data.reverse State.start [] [] [] = some (rs, a) →
      rs.length < s.data.length ∧ s.data[rs.length]? = some '\x7b') := by
  constructor
  · exact fun R st k v ac => goSteps_le R st k v ac
  · intro s rs a hgo
    obtain ⟨C, hsplit⟩ :=
      go_break_suffix s.data.reverse State.start [] [] [] rs a hgo
    have hs : s.data = rs.reverse ++ '\x7b' :: C.reverse := by
      have h2 := congrArg List.reverse hsplit
      rw [List.reverse_reverse] at h2
      rw [h2]
      simp
    constructor
    · rw [hs]
      simp only [List.length_append, List.length_reverse, List.length_cons]
      omega
    · rw [hs, List.getElem?_append_right (by simp)]
      simp

theorem C8_witness :
    ([] : List Char).length < ("\x7b#f\x7d" : String).data.length ∧
      ("\x7b#f\x7d" : String).data[([] : List Char).length]? = some '\x7b' :=
  C8_termination_and_bounds.2 "\x7b#f\x7d" [] [("id", "f")] (by decide)

/-- C9: unquoted values can never be empty while quoted values can: the bare
markers `\x7b#\x7d`, `\x7b.\x7d` and `\x7bkey=\x7d` all fail (the marker
character itself is swallowed into an unquoted value buffer that then hits the
opening brace), while `\x7bkey=""\x7d` succeeds with the single pair
`("key", "")`. -/
theorem C9_empty_values :
    parse_attrs "\x7b#\x7d" = ("\x7b#\x7d", []) ∧
    parse_attrs "\x7b.\x7d" = ("\x7b.\x7d", []) ∧
    parse_attrs "\x7bkey=\x7d" = ("\x7bkey=\x7d", []) ∧
    parse_attrs "\x7bkey=\"\"\x7d" = ("", [("key", "")]) :=
  ⟨by decide, by decide, by decide, by decide⟩

/-- C10: the token separator inside the braces is exactly ASCII whitespace
while the trailing trim of the remainder uses Unicode whitespace: a no-break
space (U+00A0) is not an ASCII separator and stays inside a value verbatim
where an ASCII space would abort the bare token, yet the same character is
trimmed from the remainder on success. -/
theorem C10_whitespace_distinction :
    isAsciiWhitespace '\xa0' = false ∧
    isUnicodeWhitespace '\xa0' = true ∧
    parse_attrs "\x7b#a\xa0b\x7d" = ("", [("id", "a\xa0b")]) ∧
    parse_attrs "\x7b#a b\x7d" = ("\x7b#a b\x7d", []) ∧
    parse_attrs "x\xa0\x7b#f\x7d" = ("x", [("id", "f")]) :=
  ⟨by decide, by decide, by decide, by decide, by decide⟩

end MarkdownItAttrs
